import Mathlib

/-!
Verification of the LANMAN2016 SIT flood-test scenario
(`examples/ndn-flood-test.cpp`) against its specification.

The scenario driver (function `main` of `ndn-flood-test.cpp`) is embedded
shallowly below: simulated time is modelled by rationals, the stream of
pseudo-random draws consumed by the driver is passed in explicitly as a
list, and the sequence of `Simulator::Schedule` calls is collected in
program order (insertion order).  Framework components the scenario relies
on but whose code is not part of this repository (the ns-3 event
scheduler's execution order, the ndnSIM LRU content store, the forwarding
semantics of floods) are modelled from the specification and marked as
such in their doc comments.
-/

/-- Simulated time, `Seconds(x)` in the source. -/
abbrev Time := ℚ

/-- The events the scenario schedules, or that the framework helpers used by
the scenario support.
`flood node content hops` is `ndn::Consumer::FloodPacketWithSeq` issued by
the consumer app attached at `node`;
`removeRoute node` is the two-argument coarse
`ndn::FibHelper::RemoveRoute(node, n)` for the producer name at `node`;
`removeRouteScoped node content nextHop` is the three-argument
`RemoveRoute(node, content, nextHop)` removing only the entry pointing at
`nextHop`;
`failLink a b` is `ndn::LinkControlHelper::FailLink(a, b)`;
`upLink a b` is the link-restoring helper (`UpLinks`), declared by the
framework header but never used by the scenario. -/
inductive Ev where
  | flood (node content hops : ℕ)
  | removeRoute (node : ℕ)
  | removeRouteScoped (node content nextHop : ℕ)
  | failLink (a b : ℕ)
  | upLink (a b : ℕ)
deriving DecidableEq, Repr

/-- A scheduled event: one call `Simulator::Schedule(Seconds(time), ev)`. -/
structure SEv where
  time : Time
  ev : Ev
deriving DecidableEq, Repr

/-- The helper `set_new_lambda` (lines 87-92): replaces the rate parameter of an
exponential distribution.  The distribution is modelled by its rate, so
the setter is the identity on the new value. -/
def set_new_lambda (val : ℚ) : ℚ := val

/-- Lines 336-341 of `main`: the new disconnect rate computed from the
active-connection count `num_connected` before `set_new_lambda` is called:
`if(0 == num_connected) lambda = disconnection_rate*1; else
lambda = disconnection_rate*num_connected;`. -/
def adjusted_disconnect_lambda (disconnection_rate : ℚ) (num_connected : ℕ) : ℚ :=
  if num_connected = 0 then disconnection_rate * 1
  else disconnection_rate * num_connected

/-- The map `app_to_node` (line 200): the leaf (consumer or producer) node attached
to infrastructure node `i` is node `i + N`, where `N` is the number of
infrastructure nodes. -/
def app_to_node (N i : ℕ) : ℕ := i + N

/-- The map `access_to_router` (line 202): maps an access (leaf) node index back to
its adjacent infrastructure router. -/
def access_to_router (N j : ℕ) : ℕ := j - N

/-- Node roles by index: infrastructure (router) nodes `0..N-1` come from
the topology file, consumer leaves `N..2N-2` are created at line 190, and
the producer leaf `2N-1` at line 191. -/
inductive Role where
  | Router
  | Consumer
  | Producer
deriving DecidableEq, Repr

/-- Role of node `i` in the assembled topology of `2N` nodes. -/
def nodeRole (N i : ℕ) : Role :=
  if i < N then Role.Router
  else if i = 2 * N - 1 then Role.Producer
  else Role.Consumer

/-- Content-store capacity installed at node `i` (lines 208-216):
`ndnHelperCaching` installs `ns3::ndn::cs::Lru` with `MaxSize cache_size`
on the infrastructure nodes, `ndnHelperInfCaching` installs
`ns3::ndn::cs::Lru` with `MaxSize num_contents` on the consumer nodes and
the producer node. `none` for indices outside the topology. -/
def installedCapacity (N cache_size num_contents i : ℕ) : Option ℕ :=
  if i < N then some cache_size
  else if i < 2 * N then some num_contents
  else none

/-- One tuple of pseudo-random draws consumed by a connect iteration:
`r` the raw `rnd_gen()` output used to pick the consumer app,
`c` the content index from `content_dist.GetNextSeq()`,
`d` the exponential inter-arrival draw `rng_exp_con(rnd_gen)`. -/
structure Draw where
  r : ℕ
  c : ℕ
  d : ℚ
deriving DecidableEq, Repr

/-- The driver's mutable state: the events scheduled so far (in program
order, i.e. insertion order), the `num_connected` counter, the
`connected_content` per-(app, content) session counts, and the current
rate parameter of the disconnect distribution `rng_exp_dis`. -/
structure DrvSt where
  events : List SEv
  num_connected : ℕ
  connected_content : ℕ → ℕ → ℕ
  dis_lambda : ℚ

/-- The driver state right before the initialization period: no events,
`num_connected = 0`, empty session table, and `rng_exp_dis` constructed
with rate `disconnection_rate` (line 261). -/
def initSt (disconnection_rate : ℚ) : DrvSt :=
  { events := [], num_connected := 0, connected_content := fun _ _ => 0,
    dis_lambda := disconnection_rate }

/-- The initialization-period connect loop (lines 265-277), a do-while:
the body always runs once, scheduling a `FloodPacketWithSeq` with hop
budget 2 at the current `connect_time`, incrementing `num_connected` and
the session count, then advancing `connect_time` by the exponential draw;
it repeats while the advanced `connect_time` is still below the phase
boundary `T`.  `numApps` is `consumer_apps.GetN()`; the modelled
randomness is the explicit list of draws, and the loop also stops when
that list is exhausted. -/
def initLoop (numApps N : ℕ) (T : Time) : Time → DrvSt → List Draw → DrvSt
  | _, st, [] => st
  | t, st, dr :: ds =>
    let app_indx := dr.r % numApps
    let st' : DrvSt :=
      { st with
        events := st.events ++ [⟨t, Ev.flood (app_to_node N app_indx) dr.c 2⟩],
        num_connected := st.num_connected + 1,
        connected_content := fun a c =>
          if a = app_indx ∧ c = dr.c then st.connected_content a c + 1
          else st.connected_content a c }
    if t + dr.d < T then initLoop numApps N T (t + dr.d) st' ds else st'

/-- The phase-boundary events (lines 279-287), in program (insertion)
order: for each infrastructure node `indx` in `0..N-1`, the coarse
`FibHelper::RemoveRoute(nodes.Get(indx), n)` at the initialization length
`T`; then `LinkControlHelper::FailLink` on the producer's access link
(infrastructure node `N-1` to leaf `app_to_node N (N-1)`), also at `T`. -/
def boundaryEvents (N : ℕ) (T : Time) : List SEv :=
  ((List.range N).map fun indx => ⟨T, Ev.removeRoute indx⟩)
    ++ [⟨T, Ev.failLink (N - 1) (app_to_node N (N - 1))⟩]

/-- One iteration of the observation-phase disconnect branch (lines
309-344), with the two random picks resolved to the chosen consumer app
`app_indx` (picked by retrying `rnd_gen()%(consumer_apps.GetN())` until
its session map is non-empty) and the chosen content `content` (the map
iterator advanced by `rnd_gen() % size`).  `t` is the current
`disconnect_time` and `d` the next `rng_exp_dis` draw.  The body
decrements the session count; if it reaches zero it schedules the scoped
`RemoveRoute(router_node, content, access_node)` and erases the map entry;
it then decrements `num_connected`, recomputes the disconnect rate via
`set_new_lambda`, and advances `disconnect_time`. -/
def disconnectStep (N : ℕ) (disconnection_rate : ℚ) (app_indx content : ℕ)
    (t : Time) (d : ℚ) (st : DrvSt) : Time × DrvSt :=
  let cnt := st.connected_content app_indx content - 1
  let access_node := app_to_node N app_indx
  let router_node := access_to_router N access_node
  let evs : List SEv :=
    if cnt = 0 then [⟨t, Ev.removeRouteScoped router_node content access_node⟩]
    else []
  let cc' : ℕ → ℕ → ℕ := fun a c =>
    if a = app_indx ∧ c = content then cnt else st.connected_content a c
  let nc := st.num_connected - 1
  (t + d,
    { events := st.events ++ evs, num_connected := nc, connected_content := cc',
      dis_lambda := set_new_lambda (adjusted_disconnect_lambda disconnection_rate nc) })

/-- The guard of the observation-phase disconnect loop, line 307: literally
`while(0)`. -/
def disconnect_loop_guard : Bool := decide ((0 : ℕ) ≠ 0)

/-- A `while` loop whose guard is the constant `0` of line 307: the guard
is tested before the first iteration and is false, so the loop performs no
iterations and returns its state unchanged.  The body is passed so that it
appears at the call site exactly where the source places it. -/
def whileZero {α : Type} (body : α → α) (s : α) : α :=
  if disconnect_loop_guard then body s else s

/-- The observation-period loop (lines 296-347): while `connect_time` is
below `observation_period_length + initialization_period_length`, pick a
consumer app and a content, increment `num_connected`, schedule a
`FloodPacketWithSeq` with hop budget 2 at `connect_time`, increment the
session count, compute the next connect time, run the disconnect branch
(whose guard `while(0)` is always false), and advance `connect_time`.
The modelled randomness is the explicit draw list; the loop also stops
when it is exhausted. -/
def obsLoop (N : ℕ) (disconnection_rate : ℚ) (Tend : Time) :
    Time → Time → DrvSt → List Draw → DrvSt
  | _, _, st, [] => st
  | connect_time, disconnect_time, st, dr :: ds =>
    if connect_time < Tend then
      let app_indx := dr.r % (N - 1)
      let st' : DrvSt :=
        { st with
          num_connected := st.num_connected + 1,
          events := st.events ++ [⟨connect_time, Ev.flood (app_to_node N app_indx) dr.c 2⟩],
          connected_content := fun a c =>
            if a = app_indx ∧ c = dr.c then st.connected_content a c + 1
            else st.connected_content a c }
      let connect_time_next := connect_time + dr.d
      let p := whileZero
        (fun q => disconnectStep N disconnection_rate app_indx dr.c q.1 dr.d q.2)
        (disconnect_time, st')
      obsLoop N disconnection_rate Tend connect_time_next p.1 p.2 ds
    else st

/-- Scalar parameters of the simulation, read from the command line
(lines 108-115). -/
structure Params where
  num_contents : ℕ
  connection_rate : ℚ
  disconnection_rate : ℚ
  initialization_period_length : Time
  observation_period_length : Time
  zipf_exponent : ℚ
  cache_size : ℕ

/-- The full event schedule built by the driver (lines 255-347): the
initialization do-while starting at `connect_time = 0.2`, then the
phase-boundary route removals and link failure, then the observation loop
starting at `connect_time = initialization_period_length + 0.2`.  `N` is
the number of infrastructure nodes read from the topology file. -/
def initPhaseSt (N : ℕ) (p : Params) (initDraws : List Draw) : DrvSt :=
  initLoop (N - 1) N p.initialization_period_length (1/5)
    (initSt p.disconnection_rate) initDraws

/-- The driver state after the initialization loop and the scheduling of
the phase-boundary events (lines 279-287). -/
def postBoundarySt (N : ℕ) (p : Params) (initDraws : List Draw) : DrvSt :=
  { events := (initPhaseSt N p initDraws).events
      ++ boundaryEvents N p.initialization_period_length,
    num_connected := (initPhaseSt N p initDraws).num_connected,
    connected_content := (initPhaseSt N p initDraws).connected_content,
    dis_lambda := (initPhaseSt N p initDraws).dis_lambda }

def driverSchedule (N : ℕ) (p : Params) (initDraws obsDraws : List Draw) : DrvSt :=
  obsLoop N p.disconnection_rate
    (p.observation_period_length + p.initialization_period_length)
    (p.initialization_period_length + 1/5) (p.initialization_period_length + 1/5)
    (postBoundarySt N p initDraws) obsDraws

/-- Outcome of running `main`: either the early `exit(0)` with its message
(lines 118-122), or a completed run with the schedule it built. -/
inductive MainResult where
  | earlyExit (status : ℕ) (message : String)
  | run (schedule : List SEv)
deriving DecidableEq

/-- The function `main` (lines 104-354): if `argc < 10` it prints the invalid-parameter
message and calls `exit(0)` before any topology or event is built;
otherwise it builds the topology and the event schedule and runs it. -/
def mainFn (argc N : ℕ) (p : Params) (initDraws obsDraws : List Draw) : MainResult :=
  if argc < 10 then MainResult.earlyExit 0 "Invalid number of parameters"
  else MainResult.run (driverSchedule N p initDraws obsDraws).events

/-- Modelled from the spec: the ns-3 `Simulator` executes scheduled events
in nondecreasing time order, breaking ties between equal timestamps by
insertion order (FIFO).  The comparison used by the scheduler. -/
def timeLe (a b : SEv) : Bool := decide (a.time ≤ b.time)

/-- Modelled from the spec: the order in which the scheduler fires a
schedule given in insertion order — the stable sort of the schedule by
time (`List.mergeSort` is stable, so equal timestamps keep their insertion
order). -/
def execOrder (l : List SEv) : List SEv := l.mergeSort timeLe

/-- Modelled from the spec: the routing and link state that the
phase-boundary events mutate. `coarseRoute i` records whether
infrastructure node `i` still holds the coarse FIB entry for the producer
name; `producerLinkUp` is the operational flag of the producer's access
link. -/
structure NetSt where
  coarseRoute : ℕ → Bool
  producerLinkUp : Bool

/-- The state after `GlobalRoutingHelper::CalculateRoutes()` (line 246):
every node holds the coarse route to the producer name and all links are
Up. -/
def netSt0 : NetSt :=
  { coarseRoute := fun _ => true, producerLinkUp := true }

/-- Modelled from the spec: the effect of each event kind on the routing
and link state.  A coarse `RemoveRoute` clears the coarse entry at its
node; `FailLink`/`UpLinks` on the producer's access link (router `N-1` to
leaf `app_to_node N (N-1)`) clear/set the flag, and are the identity on
other links, which this state does not track; a scoped removal does not
touch coarse entries (they are tracked independently); a flood mutates
neither the FIB coarse entries nor link state. -/
def applyEv (N : ℕ) (st : NetSt) (e : SEv) : NetSt :=
  match e.ev with
  | Ev.removeRoute i =>
    { st with coarseRoute := fun j => if j = i then false else st.coarseRoute j }
  | Ev.failLink a b =>
    if a = N - 1 ∧ b = app_to_node N (N - 1) then { st with producerLinkUp := false }
    else st
  | Ev.upLink a b =>
    if a = N - 1 ∧ b = app_to_node N (N - 1) then { st with producerLinkUp := true }
    else st
  | _ => st

/-- The state after executing a list of events in order. -/
def applyEvents (N : ℕ) (st : NetSt) (l : List SEv) : NetSt :=
  l.foldl (applyEv N) st

/-- Modelled from the spec: a flood forwards only across links that are Up
(a Down link participates in no forwarding decision) and only towards next
hops named by a FIB entry for the requested name.  The producer leaf is
attached to the topology only through its access link at router `N-1`, so
a flood can reach the producer only if that link is Up and router `N-1`
still resolves an entry for the producer name. -/
def canReachProducer (N : ℕ) (st : NetSt) : Bool :=
  st.producerLinkUp && st.coarseRoute (N - 1)

/-- An operation on a content store. -/
inductive CsOp where
  | put (c : ℕ)
  | get (c : ℕ)
deriving DecidableEq, Repr

/-- Modelled from the spec: the state of `ns3::ndn::cs::Lru` (installed at
lines 210 and 214; its implementation is framework code, not part of this
repository).  `store` lists the cached content ids from most to least
recently used; `touch` records the step index at which each id was last
touched by a `get` hit or a `put`; `clock` counts operations. -/
structure CsSt where
  store : List ℕ
  touch : ℕ → ℕ
  clock : ℕ

/-- The empty content store. -/
def csInit : CsSt := { store := [], touch := fun _ => 0, clock := 0 }

/-- Modelled from the spec: `get` on a hit promotes the entry to most
recently used; on a miss the store is unchanged. -/
def csGet (c : ℕ) (s : CsSt) : CsSt :=
  if c ∈ s.store then
    { store := c :: s.store.erase c,
      touch := fun x => if x = c then s.clock + 1 else s.touch x,
      clock := s.clock + 1 }
  else { s with clock := s.clock + 1 }

/-- Modelled from the spec: `put` refreshes a present entry as most
recently used; a new id is inserted as most recently used, evicting the
current least-recently-used entry first when the store is at capacity
`k`. -/
def csPut (k c : ℕ) (s : CsSt) : CsSt :=
  let store' :=
    if c ∈ s.store then c :: s.store.erase c
    else if k ≤ s.store.length then c :: s.store.dropLast
    else c :: s.store
  { store := store',
    touch := fun x => if x = c then s.clock + 1 else s.touch x,
    clock := s.clock + 1 }

/-- Run a sequence of operations on a store of capacity `k`, starting
empty. -/
def runCs (k : ℕ) (ops : List CsOp) : CsSt :=
  ops.foldl (fun s op => match op with | CsOp.put c => csPut k c s | CsOp.get c => csGet c s) csInit

/-- Whether a scheduled event is a link-status mutation (`FailLink` or the
framework's link-restoring helper). -/
def isLinkEv (e : SEv) : Bool :=
  match e.ev with
  | Ev.failLink _ _ => true
  | Ev.upLink _ _ => true
  | _ => false

/-- The LRU store invariant: the cached ids are distinct, no more than the
capacity `k` of them are held, every recorded touch is in the past, and
the store is ordered from most to least recently touched. -/
def csInv (k : ℕ) (s : CsSt) : Prop :=
  s.store.Nodup ∧ s.store.length ≤ k ∧
  (∀ x ∈ s.store, s.touch x ≤ s.clock) ∧
  s.store.Pairwise (fun a b => s.touch b < s.touch a)

theorem whileZero_eq {α : Type} (body : α → α) (s : α) : whileZero body s = s := by
  simp [whileZero, disconnect_loop_guard]

theorem initLoop_shape (numApps N : ℕ) (T : Time) :
    ∀ (ds : List Draw) (t : Time) (st : DrvSt),
      ∃ l, (initLoop numApps N T t st ds).events = st.events ++ l ∧
        (∀ e ∈ l, ∃ a c, e.ev = Ev.flood a c 2) ∧
        (initLoop numApps N T t st ds).dis_lambda = st.dis_lambda := by
  intro ds
  induction ds with
  | nil => intro t st; exact ⟨[], by simp [initLoop], by simp, by simp [initLoop]⟩
  | cons dr ds ih =>
    intro t st
    by_cases h : t + dr.d < T
    · obtain ⟨l, hl, hfl, hlam⟩ := ih (t + dr.d)
        { st with
          events := st.events ++ [⟨t, Ev.flood (app_to_node N (dr.r % numApps)) dr.c 2⟩],
          num_connected := st.num_connected + 1,
          connected_content := fun a c =>
            if a = dr.r % numApps ∧ c = dr.c then st.connected_content a c + 1
            else st.connected_content a c }
      refine ⟨⟨t, Ev.flood (app_to_node N (dr.r % numApps)) dr.c 2⟩ :: l, ?_, ?_, ?_⟩
      · simp only [initLoop, h, if_true] at hl ⊢
        simpa using hl
      · intro e he
        rcases List.mem_cons.mp he with rfl | he
        · exact ⟨app_to_node N (dr.r % numApps), dr.c, rfl⟩
        · exact hfl e he
      · simp only [initLoop, h, if_true] at hlam ⊢
        exact hlam
    · refine ⟨[⟨t, Ev.flood (app_to_node N (dr.r % numApps)) dr.c 2⟩], ?_, ?_, ?_⟩
      · simp [initLoop, h]
      · intro e he
        rcases List.mem_cons.mp he with rfl | he
        · exact ⟨app_to_node N (dr.r % numApps), dr.c, rfl⟩
        · cases he
      · simp [initLoop, h]

theorem obsLoop_spec (N : ℕ) (rate : ℚ) (Tend : Time) :
    ∀ (ds : List Draw) (t dt : Time) (st : DrvSt),
      ∃ l, (obsLoop N rate Tend t dt st ds).events = st.events ++ l ∧
        (∀ e ∈ l, ∃ a c, e.ev = Ev.flood a c 2) ∧
        st.num_connected ≤ (obsLoop N rate Tend t dt st ds).num_connected ∧
        (∀ a c, st.connected_content a c ≤
          (obsLoop N rate Tend t dt st ds).connected_content a c) ∧
        (obsLoop N rate Tend t dt st ds).dis_lambda = st.dis_lambda := by
  intro ds
  induction ds with
  | nil =>
    intro t dt st
    exact ⟨[], by simp [obsLoop], by simp, le_refl _, fun a c => le_refl _, by simp [obsLoop]⟩
  | cons dr ds ih =>
    intro t dt st
    by_cases h : t < Tend
    · have hw : ∀ (q : Time × DrvSt),
        whileZero (fun q => disconnectStep N rate (dr.r % (N - 1)) dr.c q.1 dr.d q.2) q = q :=
        fun q => whileZero_eq _ q
      set st' : DrvSt :=
        { st with
          num_connected := st.num_connected + 1,
          events := st.events ++ [⟨t, Ev.flood (app_to_node N (dr.r % (N - 1))) dr.c 2⟩],
          connected_content := fun a c =>
            if a = dr.r % (N - 1) ∧ c = dr.c then st.connected_content a c + 1
            else st.connected_content a c } with hst'
      obtain ⟨l, hl, hfl, hnc, hcc, hlam⟩ := ih (t + dr.d) dt st'
      have heq : obsLoop N rate Tend t dt st (dr :: ds)
          = obsLoop N rate Tend (t + dr.d) dt st' ds := by
        simp only [obsLoop, h, if_true]
        rw [hw]
      refine ⟨⟨t, Ev.flood (app_to_node N (dr.r % (N - 1))) dr.c 2⟩ :: l, ?_, ?_, ?_, ?_, ?_⟩
      · rw [heq, hl, hst']
        simp
      · intro e he
        rcases List.mem_cons.mp he with rfl | he
        · exact ⟨app_to_node N (dr.r % (N - 1)), dr.c, rfl⟩
        · exact hfl e he
      · rw [heq]
        calc st.num_connected ≤ st'.num_connected := by simp [hst']
        _ ≤ _ := hnc
      · intro a c
        rw [heq]
        calc st.connected_content a c ≤ st'.connected_content a c := by
              simp only [hst']
              split <;> simp
        _ ≤ _ := hcc a c
      · rw [heq, hlam, hst']
    · exact ⟨[], by simp [obsLoop, h], by simp, by simp [obsLoop, h],
        fun a c => by simp [obsLoop, h], by simp [obsLoop, h]⟩

/-- Claim C2: for every active-connection count n, the effective disconnect
rate after adjustment equals disconnection_rate × max(n, 1); in particular
adjusting with an active count of zero yields disconnection_rate × 1
rather than zero, so for a positive base rate the adjusted rate is never
zero and the disconnect process never becomes a fixed point. -/
theorem c2_disconnect_rate_adjustment (disconnection_rate : ℚ) (n : ℕ)
    (h : 0 < disconnection_rate) :
    set_new_lambda (adjusted_disconnect_lambda disconnection_rate n)
        = disconnection_rate * (max n 1 : ℕ) ∧
      0 < set_new_lambda (adjusted_disconnect_lambda disconnection_rate n) := by
  unfold set_new_lambda adjusted_disconnect_lambda
  rcases Nat.eq_zero_or_pos n with h0 | h0
  · subst h0
    constructor
    · simp
    · simpa using h
  · have hne : ¬ n = 0 := Nat.pos_iff_ne_zero.mp h0
    have hmax : max n 1 = n := Nat.max_eq_left h0
    constructor
    · simp [hne, hmax]
    · have hn : (0 : ℚ) < n := by exact_mod_cast h0
      simp only [hne, if_false]
      exact mul_pos h hn

theorem c2_witness :
    set_new_lambda (adjusted_disconnect_lambda 3 0) = 3 * (max 0 1 : ℕ) ∧
      0 < set_new_lambda (adjusted_disconnect_lambda 3 0) :=
  c2_disconnect_rate_adjustment 3 0 (by norm_num)

/-- Claim C3: content-store capacity is role-dependent at construction
time: every Router (infrastructure) node's LRU store is bounded by the
configured cache_size, while every Consumer and Producer (leaf) node's
store has capacity equal to the total content universe size
num_contents. -/
theorem c3_role_dependent_capacity (N cache_size num_contents i : ℕ)
    (hN : 1 ≤ N) (hi : i < 2 * N) :
    (nodeRole N i = Role.Router →
      installedCapacity N cache_size num_contents i = some cache_size) ∧
    ((nodeRole N i = Role.Consumer ∨ nodeRole N i = Role.Producer) →
      installedCapacity N cache_size num_contents i = some num_contents) := by
  unfold nodeRole installedCapacity
  by_cases h : i < N
  · constructor
    · intro _
      simp [h]
    · intro hrole
      rcases hrole with hrole | hrole <;> simp [h] at hrole
  · constructor
    · intro hrole
      by_cases h2 : i = 2 * N - 1
      · simp [h, h2] at hrole
        omega
      · simp [h, h2] at hrole
    · intro _
      simp [h, hi]

theorem c3_witness :
    (nodeRole 3 0 = Role.Router →
      installedCapacity 3 10 100 0 = some 10) ∧
    ((nodeRole 3 0 = Role.Consumer ∨ nodeRole 3 0 = Role.Producer) →
      installedCapacity 3 10 100 0 = some 100) :=
  c3_role_dependent_capacity 3 10 100 0 (by decide) (by decide)

/-- Claim C8: for every invocation with fewer than 10 command-line
arguments, main prints the invalid-parameter message and terminates with
exit status 0 before building any topology or scheduling any event; no
simulation state is created. -/
theorem c8_early_exit (argc N : ℕ) (p : Params) (initDraws obsDraws : List Draw)
    (h : argc < 10) :
    mainFn argc N p initDraws obsDraws
      = MainResult.earlyExit 0 "Invalid number of parameters" := by
  unfold mainFn
  simp [h]

theorem c8_witness :
    mainFn 5 9 ⟨4, 1, 1, 1, 1, 1, 2⟩ [] []
      = MainResult.earlyExit 0 "Invalid number of parameters" :=
  c8_early_exit 5 9 ⟨4, 1, 1, 1, 1, 1, 2⟩ [] [] (by decide)

/-- Claim C6: when a disconnect decrements a (consumer, content) session
reference count to exactly zero, the disconnect branch schedules a removal
of that content's scoped routing entry — scoped to that content id, at the
router adjacent to that consumer's access node, pointing at that access
node as next hop; no such removal is issued while the count is still
positive. -/
theorem c6_scoped_removal_on_zero (N : ℕ) (rate : ℚ) (app content : ℕ)
    (t : Time) (d : ℚ) (st : DrvSt) :
    (st.connected_content app content = 1 →
      (disconnectStep N rate app content t d st).2.events
        = st.events ++ [⟨t, Ev.removeRouteScoped
            (access_to_router N (app_to_node N app)) content (app_to_node N app)⟩]) ∧
    (∀ k, st.connected_content app content = k + 2 →
      (disconnectStep N rate app content t d st).2.events = st.events) := by
  constructor
  · intro h1
    simp [disconnectStep, h1]
  · intro k hk
    simp [disconnectStep, hk]

theorem c6_witness :
    (disconnectStep 2 1 0 7 3 1
        ⟨[], 1, fun a c => if a = 0 ∧ c = 7 then 1 else 0, 1⟩).2.events
      = [] ++ [⟨3, Ev.removeRouteScoped
          (access_to_router 2 (app_to_node 2 0)) 7 (app_to_node 2 0)⟩] :=
  (c6_scoped_removal_on_zero 2 1 0 7 3 1
    ⟨[], 1, fun a c => if a = 0 ∧ c = 7 then 1 else 0, 1⟩).1 (by decide)

theorem driver_events_decomp (N : ℕ) (p : Params) (i o : List Draw) :
    ∃ l₁ l₂, (driverSchedule N p i o).events
        = l₁ ++ boundaryEvents N p.initialization_period_length ++ l₂ ∧
      (∀ e ∈ l₁, ∃ a c, e.ev = Ev.flood a c 2) ∧
      (∀ e ∈ l₂, ∃ a c, e.ev = Ev.flood a c 2) := by
  obtain ⟨l₁, hl₁, hfl₁, _⟩ :=
    initLoop_shape (N - 1) N p.initialization_period_length i (1/5)
      (initSt p.disconnection_rate)
  obtain ⟨l₂, hl₂, hfl₂, _, _, _⟩ :=
    obsLoop_spec N p.disconnection_rate
      (p.observation_period_length + p.initialization_period_length) o
      (p.initialization_period_length + 1/5) (p.initialization_period_length + 1/5)
      (postBoundarySt N p i)
  refine ⟨l₁, l₂, ?_, hfl₁, hfl₂⟩
  show (obsLoop _ _ _ _ _ _ o).events = _
  rw [hl₂]
  show (postBoundarySt N p i).events ++ l₂ = _
  rw [postBoundarySt]
  show (initPhaseSt N p i).events ++ _ ++ _ = _
  rw [initPhaseSt, hl₁]
  simp [initSt]

/-- Claim C4: the observation-phase disconnect branch is dead code
(`while(0)`): from any driver state, the observation loop only appends
connect floods (never a scoped route removal), never decreases
`num_connected` or any session count, and never changes the disconnect
distribution's rate; over a whole run the disconnect rate stays at the
configured `disconnection_rate`. -/
theorem c4_disconnect_branch_unreachable (N : ℕ) (rate : ℚ) (Tend t dt : Time)
    (st : DrvSt) (ds : List Draw) :
    (∃ l, (obsLoop N rate Tend t dt st ds).events = st.events ++ l ∧
      (∀ e ∈ l, ∃ a c, e.ev = Ev.flood a c 2)) ∧
    st.num_connected ≤ (obsLoop N rate Tend t dt st ds).num_connected ∧
    (∀ a c, st.connected_content a c
      ≤ (obsLoop N rate Tend t dt st ds).connected_content a c) ∧
    (obsLoop N rate Tend t dt st ds).dis_lambda = st.dis_lambda ∧
    (∀ (N' : ℕ) (p : Params) (i o : List Draw),
      (driverSchedule N' p i o).dis_lambda = p.disconnection_rate) := by
  obtain ⟨l, hl, hfl, hnc, hcc, hlam⟩ := obsLoop_spec N rate Tend ds t dt st
  refine ⟨⟨l, hl, hfl⟩, hnc, hcc, hlam, ?_⟩
  intro N' p i o
  obtain ⟨_, _, hilam⟩ := initLoop_shape (N' - 1) N' p.initialization_period_length i (1/5)
    (initSt p.disconnection_rate)
  obtain ⟨_, _, _, _, _, holam⟩ :=
    obsLoop_spec N' p.disconnection_rate
      (p.observation_period_length + p.initialization_period_length) o
      (p.initialization_period_length + 1/5) (p.initialization_period_length + 1/5)
      (postBoundarySt N' p i)
  show (obsLoop _ _ _ _ _ _ o).dis_lambda = _
  rw [holam]
  show (initPhaseSt N' p i).dis_lambda = _
  rw [initPhaseSt]
  exact hilam.2

/-- Claim C7: every flood retrieval scheduled by the driver, in both the
initialization and the observation phase, is issued with a hop budget of
exactly 2. -/
theorem c7_hop_budget_two (N : ℕ) (p : Params) (i o : List Draw) :
    ∀ e ∈ (driverSchedule N p i o).events,
      ∀ a c h, e.ev = Ev.flood a c h → h = 2 := by
  obtain ⟨l₁, l₂, hdec, h1, h2⟩ := driver_events_decomp N p i o
  intro e he a c h heq
  rw [hdec] at he
  rcases List.mem_append.mp he with he | he
  · rcases List.mem_append.mp he with he | he
    · obtain ⟨a', c', hev⟩ := h1 e he
      rw [heq] at hev
      cases hev
      rfl
    · rcases List.mem_append.mp he with he | he
      · obtain ⟨j, _, rfl⟩ := List.mem_map.mp he
        simp at heq
      · rcases List.mem_cons.mp he with rfl | he
        · simp at heq
        · cases he
  · obtain ⟨a', c', hev⟩ := h2 e he
    rw [heq] at hev
    cases hev
    rfl

theorem c7_witness :
    (⟨1/5, Ev.flood 2 5 2⟩ : SEv) ∈ (driverSchedule 2 ⟨4, 1, 1, 1, 1, 1, 2⟩
        [⟨0, 5, 1⟩] []).events ∧ 2 = 2 :=
  ⟨by norm_num [driverSchedule, postBoundarySt, initPhaseSt, initSt, initLoop, obsLoop,
      boundaryEvents, app_to_node],
    c7_hop_budget_two 2 ⟨4, 1, 1, 1, 1, 1, 2⟩ [⟨0, 5, 1⟩] []
      ⟨1/5, Ev.flood 2 5 2⟩
      (by norm_num [driverSchedule, postBoundarySt, initPhaseSt, initSt, initLoop, obsLoop,
        boundaryEvents, app_to_node])
      2 5 2 rfl⟩

theorem initLoop_cons_head (numApps N : ℕ) (T : Time) (t : Time) (st : DrvSt)
    (dr : Draw) (ds : List Draw) :
    ∃ l, (initLoop numApps N T t st (dr :: ds)).events
      = st.events ++ ⟨t, Ev.flood (app_to_node N (dr.r % numApps)) dr.c 2⟩ :: l := by
  by_cases h : t + dr.d < T
  · obtain ⟨l, hl, _, _⟩ := initLoop_shape numApps N T ds (t + dr.d)
      { st with
        events := st.events ++ [⟨t, Ev.flood (app_to_node N (dr.r % numApps)) dr.c 2⟩],
        num_connected := st.num_connected + 1,
        connected_content := fun a c =>
          if a = dr.r % numApps ∧ c = dr.c then st.connected_content a c + 1
          else st.connected_content a c }
    refine ⟨l, ?_⟩
    simp only [initLoop, h, if_true] at hl ⊢
    rw [hl]
    simp
  · refine ⟨[], ?_⟩
    simp [initLoop, h]

/-- Claim C9: the initialization connect loop is a do-while whose body runs
once before the boundary condition is tested, so for every
parameterization at least one connect flood is scheduled, and the first
one always fires at 0.2 seconds — even when initialization_period_length
is less than or equal to 0.2. -/
theorem c9_first_flood_at_02 (N : ℕ) (p : Params) (dr : Draw) (ds os : List Draw) :
    (driverSchedule N p (dr :: ds) os).events.head?
      = some ⟨1/5, Ev.flood (app_to_node N (dr.r % (N - 1))) dr.c 2⟩ := by
  obtain ⟨l, hl⟩ := initLoop_cons_head (N - 1) N p.initialization_period_length (1/5)
    (initSt p.disconnection_rate) dr ds
  obtain ⟨l₂, hl₂, _, _, _, _⟩ := obsLoop_spec N p.disconnection_rate
    (p.observation_period_length + p.initialization_period_length) os
    (p.initialization_period_length + 1/5) (p.initialization_period_length + 1/5)
    (postBoundarySt N p (dr :: ds))
  show (obsLoop _ _ _ _ _ _ os).events.head? = _
  rw [hl₂]
  show ((postBoundarySt N p (dr :: ds)).events ++ l₂).head? = _
  rw [postBoundarySt]
  show ((initPhaseSt N p (dr :: ds)).events
    ++ boundaryEvents N p.initialization_period_length ++ l₂).head? = _
  rw [initPhaseSt, hl]
  simp [initSt]

/-- Claim C10: over an entire run exactly one link-status mutation is ever
scheduled — the failure of the producer's access link at the phase
boundary; no other link-status event of any kind appears in the schedule
and no link is ever restored. -/
theorem c10_single_link_failure (N : ℕ) (p : Params) (i o : List Draw) :
    ((driverSchedule N p i o).events.filter isLinkEv)
      = [⟨p.initialization_period_length,
          Ev.failLink (N - 1) (app_to_node N (N - 1))⟩] := by
  obtain ⟨l₁, l₂, hdec, h1, h2⟩ := driver_events_decomp N p i o
  rw [hdec]
  have hf1 : l₁.filter isLinkEv = [] := by
    rw [List.filter_eq_nil_iff]
    intro e he
    obtain ⟨a, c, hev⟩ := h1 e he
    simp [isLinkEv, hev]
  have hf2 : l₂.filter isLinkEv = [] := by
    rw [List.filter_eq_nil_iff]
    intro e he
    obtain ⟨a, c, hev⟩ := h2 e he
    simp [isLinkEv, hev]
  have hfb : (boundaryEvents N p.initialization_period_length).filter isLinkEv
      = [⟨p.initialization_period_length,
          Ev.failLink (N - 1) (app_to_node N (N - 1))⟩] := by
    rw [boundaryEvents, List.filter_append]
    have hmap : ((List.range N).map fun indx =>
        (⟨p.initialization_period_length, Ev.removeRoute indx⟩ : SEv)).filter isLinkEv
        = [] := by
      rw [List.filter_eq_nil_iff]
      intro e he
      obtain ⟨j, _, rfl⟩ := List.mem_map.mp he
      simp [isLinkEv]
    rw [hmap]
    simp [isLinkEv]
  simp [List.filter_append, hf1, hf2, hfb]

theorem pairwise_getLast {α : Type} (R : α → α → Prop) :
    ∀ (l : List α) (h : l ≠ []), l.Pairwise R → ∀ x ∈ l,
      x = l.getLast h ∨ R x (l.getLast h) := by
  intro l
  induction l with
  | nil => intro h; exact absurd rfl h
  | cons a t ih =>
    intro h hp x hx
    cases t with
    | nil =>
      rcases List.mem_singleton.mp hx with rfl
      left
      rfl
    | cons b t' =>
      have hne : b :: t' ≠ [] := by simp
      have hlast : (a :: b :: t').getLast h = (b :: t').getLast hne :=
        List.getLast_cons hne
      rcases List.mem_cons.mp hx with rfl | hx
      · right
        rw [hlast]
        exact (List.pairwise_cons.mp hp).1 _ (List.getLast_mem hne)
      · rw [hlast]
        exact ih hne (List.pairwise_cons.mp hp).2 x hx

theorem cons_fresh_inv (k : ℕ) (s : CsSt) (c : ℕ) (l' : List ℕ)
    (hsub : l'.Sublist s.store) (hcnot : c ∉ l') (hnd' : l'.Nodup)
    (hlen : l'.length + 1 ≤ k) (inv : csInv k s) :
    csInv k { store := c :: l',
              touch := fun x => if x = c then s.clock + 1 else s.touch x,
              clock := s.clock + 1 } := by
  obtain ⟨hnd, hl, hbd, hpw⟩ := inv
  refine ⟨List.nodup_cons.mpr ⟨hcnot, hnd'⟩, by simpa using hlen, ?_, ?_⟩
  · intro x hx
    by_cases hxc : x = c
    · simp [hxc]
    · rcases List.mem_cons.mp hx with rfl | hx
      · exact absurd rfl hxc
      · simp only [hxc, if_false]
        exact Nat.le_succ_of_le (hbd x (hsub.mem hx))
  · refine List.pairwise_cons.mpr ⟨?_, ?_⟩
    · intro b hb
      have hbc : b ≠ c := fun hbc => hcnot (hbc ▸ hb)
      simp only [hbc, if_false, if_pos rfl]
      exact Nat.lt_succ_of_le (hbd b (hsub.mem hb))
    · refine (hpw.sublist hsub).imp_of_mem ?_
      intro a b ha hb hab
      have hac : a ≠ c := fun h => hcnot (h ▸ ha)
      have hbc : b ≠ c := fun h => hcnot (h ▸ hb)
      simpa [hac, hbc] using hab

theorem csInv_get (k c : ℕ) (s : CsSt) (inv : csInv k s) : csInv k (csGet c s) := by
  obtain ⟨hnd, hl, hbd, hpw⟩ := inv
  by_cases hc : c ∈ s.store
  · show csInv k _
    rw [csGet, if_pos hc]
    refine cons_fresh_inv k s c (s.store.erase c) (List.erase_sublist c s.store)
      (fun h => ((hnd.mem_erase_iff).mp h).1 rfl) (hnd.erase c) ?_ ⟨hnd, hl, hbd, hpw⟩
    rw [List.length_erase_of_mem hc]
    have := List.length_pos_of_mem hc
    omega
  · rw [csGet, if_neg hc]
    refine ⟨hnd, hl, ?_, hpw⟩
    intro x hx
    exact Nat.le_succ_of_le (hbd x hx)

theorem csInv_put (k c : ℕ) (s : CsSt) (hk : 1 ≤ k) (inv : csInv k s) :
    csInv k (csPut k c s) := by
  obtain ⟨hnd, hl, hbd, hpw⟩ := inv
  by_cases hc : c ∈ s.store
  · show csInv k _
    rw [csPut]
    simp only [hc, if_true]
    refine cons_fresh_inv k s c (s.store.erase c) (List.erase_sublist c s.store)
      (fun h => ((hnd.mem_erase_iff).mp h).1 rfl) (hnd.erase c) ?_ ⟨hnd, hl, hbd, hpw⟩
    rw [List.length_erase_of_mem hc]
    have := List.length_pos_of_mem hc
    omega
  · by_cases hcap : k ≤ s.store.length
    · rw [csPut]
      simp only [hc, if_false, hcap, if_true]
      refine cons_fresh_inv k s c s.store.dropLast (List.dropLast_sublist s.store)
        (fun h => hc ((List.dropLast_sublist s.store).mem h)) (hnd.sublist (List.dropLast_sublist s.store)) ?_ ⟨hnd, hl, hbd, hpw⟩
      rw [List.length_dropLast]
      omega
    · rw [csPut]
      simp only [hc, if_false, hcap]
      refine cons_fresh_inv k s c s.store (List.Sublist.refl s.store) hc hnd ?_
        ⟨hnd, hl, hbd, hpw⟩
      omega

theorem csInv_runCs (k : ℕ) (hk : 1 ≤ k) (ops : List CsOp) : csInv k (runCs k ops) := by
  have hstep : ∀ (ops' : List CsOp) (s : CsSt), csInv k s →
      csInv k (ops'.foldl (fun s op =>
        match op with | CsOp.put c => csPut k c s | CsOp.get c => csGet c s) s) := by
    intro ops'
    induction ops' with
    | nil => intro s hs; exact hs
    | cons op t ih =>
      intro s hs
      apply ih
      cases op with
      | put c => exact csInv_put k c s hk hs
      | get c => exact csInv_get k c s hs
  have hinit : csInv k csInit := by
    refine ⟨List.nodup_nil, by simp [csInit], ?_, List.Pairwise.nil⟩
    intro x hx
    cases hx
  exact hstep ops csInit hinit

/-- Claim C5: for all sequences of put/get operations on a ContentStore of
capacity k, the store never holds more than k distinct content ids, and
whenever an insertion of a new id occurs at capacity, the id evicted (the
last of the recency-ordered store) is the one least recently touched by
either a get or a put. -/
theorem c5_lru_bound_and_eviction (k : ℕ) (hk : 1 ≤ k) (ops : List CsOp) :
    (runCs k ops).store.Nodup ∧ (runCs k ops).store.length ≤ k ∧
    (∀ c, c ∉ (runCs k ops).store → (runCs k ops).store.length = k →
      (csPut k c (runCs k ops)).store = c :: (runCs k ops).store.dropLast ∧
      ∀ lst ∈ (runCs k ops).store.getLast?, ∀ x ∈ (runCs k ops).store,
        (runCs k ops).touch lst ≤ (runCs k ops).touch x) := by
  obtain ⟨hnd, hl, hbd, hpw⟩ := csInv_runCs k hk ops
  refine ⟨hnd, hl, ?_⟩
  intro c hc hlen
  constructor
  · rw [csPut]
    simp [hc, hlen]
  · intro lst hlst x hx
    have hne : (runCs k ops).store ≠ [] := by
      intro h
      rw [h] at hlen
      simp at hlen
      omega
    rw [List.getLast?_eq_getLast _ hne, Option.mem_some_iff] at hlst
    subst hlst
    rcases pairwise_getLast _ (runCs k ops).store hne hpw x hx with h | h
    · rw [h]
    · exact Nat.le_of_lt h

theorem c5_witness :
    (runCs 2 [CsOp.put 0, CsOp.put 1, CsOp.get 0, CsOp.put 2]).store.Nodup ∧
    (csPut 2 5 (runCs 2 [CsOp.put 0, CsOp.put 1, CsOp.get 0, CsOp.put 2])).store
      = 5 :: (runCs 2 [CsOp.put 0, CsOp.put 1, CsOp.get 0, CsOp.put 2]).store.dropLast :=
  ⟨(c5_lru_bound_and_eviction 2 (by decide) [CsOp.put 0, CsOp.put 1, CsOp.get 0, CsOp.put 2]).1,
   ((c5_lru_bound_and_eviction 2 (by decide) [CsOp.put 0, CsOp.put 1, CsOp.get 0, CsOp.put 2]).2.2
      5 (by decide) (by decide)).1⟩

theorem initLoop_strong (numApps N : ℕ) (T : Time) :
    ∀ (ds : List Draw) (t : Time) (st : DrvSt),
      t < T → (∀ dr ∈ ds, 0 ≤ dr.d) →
      ∃ l, (initLoop numApps N T t st ds).events = st.events ++ l ∧
        (∀ e ∈ l, (∃ a c, e.ev = Ev.flood a c 2) ∧ t ≤ e.time ∧ e.time < T) ∧
        l.Pairwise (fun a b => a.time ≤ b.time) := by
  intro ds
  induction ds with
  | nil =>
    intro t st _ _
    exact ⟨[], by simp [initLoop], by simp, List.Pairwise.nil⟩
  | cons dr ds ih =>
    intro t st ht hd
    by_cases h : t + dr.d < T
    · have hd' : ∀ x ∈ ds, 0 ≤ x.d := fun x hx => hd x (List.mem_cons_of_mem dr hx)
      obtain ⟨l, hl, hprops, hpw⟩ := ih (t + dr.d)
        { st with
          events := st.events ++ [⟨t, Ev.flood (app_to_node N (dr.r % numApps)) dr.c 2⟩],
          num_connected := st.num_connected + 1,
          connected_content := fun a c =>
            if a = dr.r % numApps ∧ c = dr.c then st.connected_content a c + 1
            else st.connected_content a c } h hd'
      have hdr : 0 ≤ dr.d := hd dr (List.mem_cons_self dr ds)
      refine ⟨⟨t, Ev.flood (app_to_node N (dr.r % numApps)) dr.c 2⟩ :: l, ?_, ?_, ?_⟩
      · simp only [initLoop, h, if_true] at hl ⊢
        simpa using hl
      · intro e he
        rcases List.mem_cons.mp he with rfl | he
        · exact ⟨⟨app_to_node N (dr.r % numApps), dr.c, rfl⟩, le_refl t, ht⟩
        · obtain ⟨hev, hle, hlt⟩ := hprops e he
          refine ⟨hev, ?_, hlt⟩
          calc t ≤ t + dr.d := by linarith
          _ ≤ e.time := hle
      · refine List.pairwise_cons.mpr ⟨?_, hpw⟩
        intro e he
        obtain ⟨_, hle, _⟩ := hprops e he
        show t ≤ e.time
        calc t ≤ t + dr.d := by linarith
        _ ≤ e.time := hle
    · refine ⟨[⟨t, Ev.flood (app_to_node N (dr.r % numApps)) dr.c 2⟩], ?_, ?_, ?_⟩
      · simp [initLoop, h]
      · intro e he
        rcases List.mem_cons.mp he with rfl | he
        · exact ⟨⟨app_to_node N (dr.r % numApps), dr.c, rfl⟩, le_refl t, ht⟩
        · cases he
      · simp

theorem obsLoop_strong (N : ℕ) (rate : ℚ) (Tend : Time) :
    ∀ (ds : List Draw) (t dt : Time) (st : DrvSt),
      (∀ dr ∈ ds, 0 ≤ dr.d) →
      ∃ l, (obsLoop N rate Tend t dt st ds).events = st.events ++ l ∧
        (∀ e ∈ l, (∃ a c, e.ev = Ev.flood a c 2) ∧ t ≤ e.time) ∧
        l.Pairwise (fun a b => a.time ≤ b.time) := by
  intro ds
  induction ds with
  | nil =>
    intro t dt st _
    exact ⟨[], by simp [obsLoop], by simp, List.Pairwise.nil⟩
  | cons dr ds ih =>
    intro t dt st hd
    by_cases h : t < Tend
    · have hd' : ∀ x ∈ ds, 0 ≤ x.d := fun x hx => hd x (List.mem_cons_of_mem dr hx)
      have hdr : 0 ≤ dr.d := hd dr (List.mem_cons_self dr ds)
      set st' : DrvSt :=
        { st with
          num_connected := st.num_connected + 1,
          events := st.events ++ [⟨t, Ev.flood (app_to_node N (dr.r % (N - 1))) dr.c 2⟩],
          connected_content := fun a c =>
            if a = dr.r % (N - 1) ∧ c = dr.c then st.connected_content a c + 1
            else st.connected_content a c } with hst'
      obtain ⟨l, hl, hprops, hpw⟩ := ih (t + dr.d) dt st' hd'
      have heq : obsLoop N rate Tend t dt st (dr :: ds)
          = obsLoop N rate Tend (t + dr.d) dt st' ds := by
        simp only [obsLoop, h, if_true]
        rw [whileZero_eq]
      refine ⟨⟨t, Ev.flood (app_to_node N (dr.r % (N - 1))) dr.c 2⟩ :: l, ?_, ?_, ?_⟩
      · rw [heq, hl, hst']
        simp
      · intro e he
        rcases List.mem_cons.mp he with rfl | he
        · exact ⟨⟨app_to_node N (dr.r % (N - 1)), dr.c, rfl⟩, le_refl t⟩
        · obtain ⟨hev, hle⟩ := hprops e he
          refine ⟨hev, ?_⟩
          calc t ≤ t + dr.d := by linarith
          _ ≤ e.time := hle
      · refine List.pairwise_cons.mpr ⟨?_, hpw⟩
        intro e he
        obtain ⟨_, hle⟩ := hprops e he
        show t ≤ e.time
        calc t ≤ t + dr.d := by linarith
        _ ≤ e.time := hle
    · exact ⟨[], by simp [obsLoop, h], by simp, List.Pairwise.nil⟩

theorem applyEvents_append (N : ℕ) (st : NetSt) (l₁ l₂ : List SEv) :
    applyEvents N st (l₁ ++ l₂) = applyEvents N (applyEvents N st l₁) l₂ := by
  simp [applyEvents, List.foldl_append]

theorem applyEvents_floods (N : ℕ) :
    ∀ (l : List SEv) (st : NetSt),
      (∀ e ∈ l, ∃ a c h, e.ev = Ev.flood a c h) → applyEvents N st l = st := by
  intro l
  induction l with
  | nil => intro st _; rfl
  | cons e t ih =>
    intro st hfl
    obtain ⟨a, c, h, hev⟩ := hfl e (List.mem_cons_self e t)
    have hstep : applyEv N st e = st := by
      rw [applyEv, hev]
    show applyEvents N (applyEv N st e) t = st
    rw [hstep]
    exact ih st fun x hx => hfl x (List.mem_cons_of_mem e hx)

theorem applyEvents_removals (N : ℕ) (T : Time) :
    ∀ (rs : List ℕ) (st : NetSt),
      (applyEvents N st (rs.map fun i => ⟨T, Ev.removeRoute i⟩)).producerLinkUp
          = st.producerLinkUp ∧
      ∀ j, (applyEvents N st (rs.map fun i => ⟨T, Ev.removeRoute i⟩)).coarseRoute j
          = if j ∈ rs then false else st.coarseRoute j := by
  intro rs
  induction rs with
  | nil => intro st; exact ⟨rfl, fun j => by simp [applyEvents]⟩
  | cons i rs ih =>
    intro st
    have hstep : applyEv N st ⟨T, Ev.removeRoute i⟩
        = { st with coarseRoute := fun j => if j = i then false else st.coarseRoute j } := by
      rw [applyEv]
    have hrw : applyEvents N st ((i :: rs).map fun i => (⟨T, Ev.removeRoute i⟩ : SEv))
        = applyEvents N (applyEv N st ⟨T, Ev.removeRoute i⟩)
            (rs.map fun i => ⟨T, Ev.removeRoute i⟩) := rfl
    obtain ⟨hlink, hroute⟩ := ih
      { st with coarseRoute := fun j => if j = i then false else st.coarseRoute j }
    constructor
    · rw [hrw, hstep]
      exact hlink
    · intro j
      rw [hrw, hstep, hroute j]
      by_cases hj : j ∈ rs
      · simp [hj]
      · by_cases hji : j = i
        · simp [hj, hji]
        · simp [hj, hji]

theorem boundary_state (N : ℕ) (T : Time) (st : NetSt) :
    (applyEvents N st (boundaryEvents N T)).producerLinkUp = false ∧
    ∀ j, j < N → (applyEvents N st (boundaryEvents N T)).coarseRoute j = false := by
  rw [boundaryEvents, applyEvents_append]
  obtain ⟨hlink, hroute⟩ := applyEvents_removals N T (List.range N) st
  set st₁ := applyEvents N st ((List.range N).map fun i => ⟨T, Ev.removeRoute i⟩) with hst₁
  have hfail : applyEvents N st₁ [⟨T, Ev.failLink (N - 1) (app_to_node N (N - 1))⟩]
      = { st₁ with producerLinkUp := false } := by
    show applyEv N st₁ ⟨T, Ev.failLink (N - 1) (app_to_node N (N - 1))⟩ = _
    rw [applyEv]
    exact if_pos ⟨rfl, rfl⟩
  rw [hfail]
  refine ⟨rfl, ?_⟩
  intro j hj
  show st₁.coarseRoute j = false
  rw [hst₁, hroute j]
  simp [List.mem_range.mpr hj]

theorem boundary_times (N : ℕ) (T : Time) :
    ∀ e ∈ boundaryEvents N T, e.time = T := by
  intro e he
  rw [boundaryEvents] at he
  rcases List.mem_append.mp he with he | he
  · obtain ⟨j, _, rfl⟩ := List.mem_map.mp he
    rfl
  · rcases List.mem_cons.mp he with rfl | he
    · rfl
    · cases he

/-- Claim C1: at the phase boundary (time = initialization length) the
coarse route removals for the producer's name at every infrastructure node
are inserted into the schedule before the producer's access-link failure
scheduled at the same instant; the scheduler fires events in nondecreasing
time order with a FIFO tie-break, so the driver's schedule executes
exactly in insertion order: all removals fire before the link failure, and
both fire before any event scheduled at a strictly later time; once the
boundary block has executed, every infrastructure node's coarse route is
gone and the access link is down, so a flood issued after the boundary at
any point of the post-boundary suffix cannot reach the producer through a
stale entry. -/
theorem c1_phase_boundary_ordering (N : ℕ) (p : Params) (i o : List Draw)
    (hT : 1/5 < p.initialization_period_length)
    (hi : ∀ dr ∈ i, 0 ≤ dr.d) (ho : ∀ dr ∈ o, 0 ≤ dr.d) :
    ∃ A B,
      (driverSchedule N p i o).events
        = A ++ boundaryEvents N p.initialization_period_length ++ B ∧
      (∀ e ∈ A, e.time < p.initialization_period_length) ∧
      (∀ e ∈ B, p.initialization_period_length < e.time) ∧
      execOrder (driverSchedule N p i o).events = (driverSchedule N p i o).events ∧
      (∀ j < N, (applyEvents N netSt0
        (A ++ boundaryEvents N p.initialization_period_length)).coarseRoute j = false) ∧
      (applyEvents N netSt0
        (A ++ boundaryEvents N p.initialization_period_length)).producerLinkUp = false ∧
      (∀ B₁ B₂, B = B₁ ++ B₂ →
        canReachProducer N (applyEvents N netSt0
          (A ++ boundaryEvents N p.initialization_period_length ++ B₁)) = false) := by
  obtain ⟨A, hA, hAprops, hApw⟩ := initLoop_strong (N - 1) N
    p.initialization_period_length i (1/5) (initSt p.disconnection_rate) hT hi
  obtain ⟨B, hB, hBprops, hBpw⟩ := obsLoop_strong N p.disconnection_rate
    (p.observation_period_length + p.initialization_period_length) o
    (p.initialization_period_length + 1/5) (p.initialization_period_length + 1/5)
    (postBoundarySt N p i) ho
  have hevents : (driverSchedule N p i o).events
      = A ++ boundaryEvents N p.initialization_period_length ++ B := by
    show (obsLoop _ _ _ _ _ _ o).events = _
    rw [hB]
    show (postBoundarySt N p i).events ++ B = _
    rw [postBoundarySt]
    show (initPhaseSt N p i).events
      ++ boundaryEvents N p.initialization_period_length ++ B = _
    rw [initPhaseSt, hA]
    simp [initSt]
  have hAtime : ∀ e ∈ A, e.time < p.initialization_period_length :=
    fun e he => (hAprops e he).2.2
  have hBtime : ∀ e ∈ B, p.initialization_period_length < e.time := by
    intro e he
    have h1 : p.initialization_period_length
        < p.initialization_period_length + 1/5 := by linarith
    exact lt_of_lt_of_le h1 (hBprops e he).2
  have hAfloods : ∀ e ∈ A, ∃ a c h, e.ev = Ev.flood a c h := by
    intro e he
    obtain ⟨⟨a, c, hev⟩, _, _⟩ := hAprops e he
    exact ⟨a, c, 2, hev⟩
  have hsortle : (A ++ boundaryEvents N p.initialization_period_length ++ B).Pairwise
      (fun a b => a.time ≤ b.time) := by
    refine List.pairwise_append.mpr ⟨?_, ?_, ?_⟩
    · refine List.pairwise_append.mpr ⟨hApw, ?_, ?_⟩
      · refine List.pairwise_of_forall_mem_list ?_
        intro a ha b hb
        rw [boundary_times N _ a ha, boundary_times N _ b hb]
      · intro a ha b hb
        rw [boundary_times N _ b hb]
        exact le_of_lt (hAtime a ha)
    · exact hBpw
    · intro a ha b hb
      rcases List.mem_append.mp ha with ha | ha
      · exact le_of_lt (lt_trans (hAtime a ha) (hBtime b hb))
      · rw [boundary_times N _ a ha]
        exact le_of_lt (hBtime b hb)
  have hsorted : execOrder (driverSchedule N p i o).events
      = (driverSchedule N p i o).events := by
    rw [execOrder, hevents]
    exact List.mergeSort_of_sorted
      (hsortle.imp fun hab => decide_eq_true hab)
  have hAB : applyEvents N netSt0
      (A ++ boundaryEvents N p.initialization_period_length)
      = applyEvents N netSt0 (boundaryEvents N p.initialization_period_length) := by
    rw [applyEvents_append, applyEvents_floods N A netSt0 hAfloods]
  obtain ⟨hlink, hroute⟩ :=
    boundary_state N p.initialization_period_length netSt0
  refine ⟨A, B, hevents, hAtime, hBtime, hsorted, ?_, ?_, ?_⟩
  · intro j hj
    rw [hAB]
    exact hroute j hj
  · rw [hAB]
    exact hlink
  · intro B₁ B₂ hBsplit
    have hB₁floods : ∀ e ∈ B₁, ∃ a c h, e.ev = Ev.flood a c h := by
      intro e he
      have heB : e ∈ B := by
        rw [hBsplit]
        exact List.mem_append_left B₂ he
      obtain ⟨⟨a, c, hev⟩, _⟩ := hBprops e heB
      exact ⟨a, c, 2, hev⟩
    have hstate : applyEvents N netSt0
        (A ++ boundaryEvents N p.initialization_period_length ++ B₁)
        = applyEvents N netSt0
          (A ++ boundaryEvents N p.initialization_period_length) := by
      rw [applyEvents_append, applyEvents_floods N B₁ _ hB₁floods]
    rw [hstate, canReachProducer, hAB, hlink]
    rfl

theorem c1_witness :
    ∃ A B,
      (driverSchedule 2 ⟨4, 1, 1, 1, 1, 1, 2⟩ [⟨0, 5, 1⟩] []).events
        = A ++ boundaryEvents 2 1 ++ B ∧
      (∀ e ∈ A, e.time < 1) ∧
      (∀ e ∈ B, 1 < e.time) ∧
      execOrder (driverSchedule 2 ⟨4, 1, 1, 1, 1, 1, 2⟩ [⟨0, 5, 1⟩] []).events
        = (driverSchedule 2 ⟨4, 1, 1, 1, 1, 1, 2⟩ [⟨0, 5, 1⟩] []).events ∧
      (∀ j < 2, (applyEvents 2 netSt0 (A ++ boundaryEvents 2 1)).coarseRoute j = false) ∧
      (applyEvents 2 netSt0 (A ++ boundaryEvents 2 1)).producerLinkUp = false ∧
      (∀ B₁ B₂, B = B₁ ++ B₂ →
        canReachProducer 2 (applyEvents 2 netSt0 (A ++ boundaryEvents 2 1 ++ B₁)) = false) :=
  c1_phase_boundary_ordering 2 ⟨4, 1, 1, 1, 1, 1, 2⟩ [⟨0, 5, 1⟩] []
    (by norm_num)
    (by
      intro dr hdr
      rcases List.mem_singleton.mp hdr with rfl
      norm_num)
    (by simp)
